import Mathlib

/-!
Verification of the typed-value normalization engine and streaming row
emitter of `parquet2jsonl.py`.

The embedding uses a single value universe `Val`, mirroring the source's
duck-typed dispatch: Python `None`, primitives, lists and dicts, plus the
PyArrow wrapper shapes (`MapArray`, `ListArray`/`LargeListArray`,
`StructArray`, plain `Array`, `Scalar`) that `convert_arrow_value_to_python`
tests for with `isinstance`, in that order.  Fallible evaluation (a Python
exception such as the `IndexError` from `items[i]`, or the `TypeError`
from using an unhashable dict key) is modelled with `Option`.
-/

set_option autoImplicit false

namespace P2J

/-- A runtime value as seen by `convert_arrow_value_to_python`:
Python natives (`null`, `bool`, `int`, `str`, `list`, `dict`) together with
the PyArrow shapes the function dispatches on.  A Python dict is modelled
as its insertion-ordered association list. -/
inductive Val where
  | null : Val
  | bool (b : Bool) : Val
  | int (n : Int) : Val
  | str (s : String) : Val
  | list (xs : List Val) : Val
  | dict (entries : List (Val × Val)) : Val
  | mapArr (keys items : List Val) : Val
  | listArr (xs : List Val) : Val
  | structArr (fields : List (String × Val)) : Val
  | arr (xs : List Val) : Val
  | scalar (v : Val) : Val

/-- Discriminator for the `null` value (Python `x is None`). -/
def Val.isNull : Val → Bool
  | .null => true
  | _ => false

/-- Discriminator for text values (Python `isinstance(x, str)`). -/
def Val.isStr : Val → Bool
  | .str _ => true
  | _ => false

/-- Python `==` on the values that can appear as dict keys here.
Structural equality on primitives, except that Python identifies
`True` with `1` and `False` with `0`. -/
def pyEq : Val → Val → Bool
  | .null, .null => true
  | .bool a, .bool b => a == b
  | .bool a, .int b => (if a then (1 : Int) else 0) == b
  | .int a, .bool b => a == (if b then (1 : Int) else 0)
  | .int a, .int b => a == b
  | .str a, .str b => a == b
  | _, _ => false

/-- Python hashability of a converted value: lists and dicts are
unhashable and raise `TypeError` when used as a dict key. -/
def hashable : Val → Bool
  | .list _ => false
  | .dict _ => false
  | _ => true

/-- Assignment `d[k] = v` on an insertion-ordered dict: if some existing
key compares `pyEq`-equal, its value is replaced in place (the original
key object is kept, as Python does); otherwise the pair is appended. -/
def dictInsert : List (Val × Val) → Val → Val → List (Val × Val)
  | [], k, v => [(k, v)]
  | (k', v') :: rest, k, v =>
      if pyEq k' k then (k', v) :: rest else (k', v') :: dictInsert rest k v

mutual

/-- Shallow embedding of `convert_arrow_value_to_python` (src lines 17-68).
Each arm mirrors one `isinstance` branch of the source, in source order. -/
def normalize : Val → Option Val
  | .null => some .null
  | .mapArr keys items => (mapPairs keys items 0 []).map Val.dict
  | .listArr xs => (normElems xs).map Val.list
  | .structArr fields => (structFields fields []).map Val.dict
  | .arr [] => some .null
  | .arr [x] => normalize x
  | .arr (x :: y :: rest) => (normElems (x :: y :: rest)).map Val.list
  | .scalar v => normalize v
  | .dict kvs => (dictItems kvs).map Val.dict
  | .list xs => (normElems xs).map Val.list
  | .bool b => some (.bool b)
  | .int n => some (.int n)
  | .str s => some (.str s)
termination_by v => sizeOf v

/-- The map loop of src lines 27-33: walk the keys with the running index
`i`, skip pairs whose raw key is `None`, fetch `items[i]` (an out-of-range
index is Python's `IndexError`, modelled as `Option.none`), convert the
item and then the key, and assign into the accumulated dict (an unhashable
converted key is Python's `TypeError`, also `Option.none`). -/
def mapPairs : List Val → List Val → Nat → List (Val × Val) →
    Option (List (Val × Val))
  | [], _, _, acc => some acc
  | k :: ks, items, i, acc =>
      if k.isNull then mapPairs ks items (i + 1) acc
      else
        match h : items.get? i with
        | Option.none => Option.none
        | Option.some it => do
            let iv ← normalize it
            let kv ← normalize k
            if hashable kv then mapPairs ks items (i + 1) (dictInsert acc kv iv)
            else Option.none
termination_by ks items i acc => sizeOf ks + sizeOf items
decreasing_by
  all_goals simp_wf
  all_goals try omega
  all_goals
    have hlt := List.sizeOf_lt_of_mem (List.get?_mem h)
    omega

/-- Elementwise conversion of a sequence (src lines 37, 54, 65). -/
def normElems : List Val → Option (List Val)
  | [] => some []
  | x :: xs => do
      let v ← normalize x
      let vs ← normElems xs
      pure (v :: vs)
termination_by xs => sizeOf xs

/-- The struct loop of src lines 41-46: one iteration per schema field, in
schema order; a field whose value is `None` is skipped, otherwise the
converted value is assigned under the field's name. -/
def structFields : List (String × Val) → List (Val × Val) →
    Option (List (Val × Val))
  | [], acc => some acc
  | (name, v) :: fs, acc =>
      if v.isNull then structFields fs acc
      else do
        let w ← normalize v
        structFields fs (dictInsert acc (.str name) w)
termination_by fs acc => sizeOf fs

/-- The dict comprehension of src line 62: keys pass through unchanged,
values are converted. -/
def dictItems : List (Val × Val) → Option (List (Val × Val))
  | [] => some []
  | (k, v) :: kvs => do
      let w ← normalize v
      let rest ← dictItems kvs
      pure ((k, w) :: rest)
termination_by kvs => sizeOf kvs

end

/-- Lower-case hex digit, as produced by Python's `json` escaper. -/
def hexDigit (n : Nat) : Char :=
  if n < 10 then Char.ofNat (48 + n) else Char.ofNat (87 + n)

/-- Escaping of one character inside a JSON string literal, following
`json.dumps` with `ensure_ascii=False`: only the quote, the backslash and
control characters are escaped; everything else is emitted raw. -/
def escapeChar (c : Char) : String :=
  if c = '"' then "\\\""
  else if c = '\\' then "\\\\"
  else if c = '\n' then "\\n"
  else if c = '\t' then "\\t"
  else if c = '\r' then "\\r"
  else if c.toNat = 8 then "\\b"
  else if c.toNat = 12 then "\\f"
  else if c.toNat < 32 then
    "\\u00" ++ String.mk [hexDigit (c.toNat / 16), hexDigit (c.toNat % 16)]
  else String.mk [c]

/-- JSON escaping of a whole string body. -/
def escapeJson (s : String) : String :=
  String.join (s.toList.map escapeChar)

/-- A quoted JSON string literal. -/
def dumpStr (s : String) : String :=
  "\"" ++ escapeJson s ++ "\""

/-- Python's default textual form for values json cannot serialize; the
emitter path never reaches it (src's `default=str` best-effort fallback). -/
def pyFallbackText : String := "<pyarrow object>"

/-- Rendering of a dict key by `json.dumps`: a str key is emitted as a
JSON string; int, bool and None keys are coerced to their textual form and
quoted. -/
def dumpKey : Val → String
  | .str s => dumpStr s
  | .int n => "\"" ++ toString n ++ "\""
  | .bool b => if b then "\"true\"" else "\"false\""
  | .null => "\"null\""
  | _ => dumpStr pyFallbackText

mutual

/-- Shallow embedding of `json.dumps(value, ensure_ascii=False, default=str)`
(src line 101) with the default separators. -/
def dumps : Val → String
  | .null => "null"
  | .bool b => if b then "true" else "false"
  | .int n => toString n
  | .str s => dumpStr s
  | .list xs => "[" ++ String.intercalate ", " (dumpsList xs) ++ "]"
  | .dict kvs => "\x7b" ++ String.intercalate ", " (dumpsEntries kvs) ++ "\x7d"
  | _ => dumpStr pyFallbackText

/-- Serialized forms of the elements of a JSON array. -/
def dumpsList : List Val → List String
  | [] => []
  | x :: xs => dumps x :: dumpsList xs

/-- Serialized `key: value` members of a JSON object. -/
def dumpsEntries : List (Val × Val) → List String
  | [] => []
  | (k, v) :: kvs => (dumpKey k ++ ": " ++ dumps v) :: dumpsEntries kvs

end

/-- The inner column loop of src lines 92-98: for each column name in
order, fetch the row's cell, convert it, and assign it into the row dict
under the column name. -/
def buildRow : List (String × List Val) → Nat → List (Val × Val) →
    Option (List (Val × Val))
  | [], _, acc => some acc
  | (name, colVals) :: cols, i, acc => do
      let cell ← colVals.get? i
      let pv ← normalize cell
      buildRow cols i (dictInsert acc (.str name) pv)

/-- One output line of src lines 91-101: the row dict serialized by
`json.dumps` (the trailing newline of line 102 is the line separator and
not part of the line). -/
def rowLine (cols : List (String × List Val)) (i : Nat) : Option String := do
  let d ← buildRow cols i []
  pure (dumps (.dict d))

/-- The row loop of src lines 90-102, producing the output lines for rows
`i, i+1, ...` while `remaining` rows are left. -/
def emitRows (cols : List (String × List Val)) (i : Nat) :
    Nat → Option (List String)
  | 0 => some []
  | remaining + 1 => do
      let line ← rowLine cols i
      let rest ← emitRows cols (i + 1) remaining
      pure (line :: rest)

/-- Shallow embedding of `convert_parquet_to_jsonl` (src lines 71-109):
the table is the ordered list of named columns; the result is the list of
emitted JSONL lines. -/
def convert_parquet_to_jsonl (cols : List (String × List Val))
    (numRows : Nat) : Option (List String) :=
  emitRows cols 0 numRows

/-- One iteration of the batch loop of src lines 132-141: convert the
file inside `try`; on success add its row count to the running total, on
any exception log and continue, leaving the total unchanged. -/
def batchStep {α : Type} (convert : α → Except String Nat)
    (total : Nat) (f : α) : Nat :=
  match convert f with
  | .ok rows => total + rows
  | .error _ => total

/-- Shallow embedding of the batch loop of `convert_all_parquet_files`
(src lines 131-141): fold `batchStep` over the files, starting from a
total of zero. -/
def convert_all_parquet_files {α : Type} (convert : α → Except String Nat)
    (files : List α) : Nat :=
  files.foldl (batchStep convert) 0

/-- A concrete per-file converter used to exercise the batch driver: one
file name fails with an exception, every other file converts to one row. -/
def convOneBad : String → Except String Nat :=
  fun s => if s = "bad.parquet" then .error "IndexError" else .ok 1

/-- The output shape the amended struct claim ascribes to the struct arm:
one entry per schema field whose value is not `Null`, keyed by the field
name, in schema order; `Null`-valued fields are omitted. -/
def structSpec : List (String × Val) → List (Val × Val)
  | [] => []
  | (name, v) :: fs =>
      if v.isNull then structSpec fs
      else
        match normalize v with
        | some w => (Val.str name, w) :: structSpec fs
        | Option.none => structSpec fs

/-- A value whose outermost shape is a Python native (not a PyArrow
wrapper).  Map keys reach the loop through `to_pylist()`, which only
produces such values. -/
def pyNativeTop : Val → Bool
  | .mapArr _ _ => false
  | .listArr _ => false
  | .structArr _ => false
  | .arr _ => false
  | .scalar _ => false
  | _ => true

/-- The canonical-output sublanguage: what `convert_arrow_value_to_python`
can return.  Dict keys are unconstrained because the dict comprehension of
src line 62 passes keys through untouched. -/
inductive NormOut : Val → Prop where
  | null : NormOut .null
  | bool (b : Bool) : NormOut (.bool b)
  | int (n : Int) : NormOut (.int n)
  | str (s : String) : NormOut (.str s)
  | list {xs : List Val} (h : ∀ x ∈ xs, NormOut x) : NormOut (.list xs)
  | dict {kvs : List (Val × Val)} (h : ∀ p ∈ kvs, NormOut p.2) :
      NormOut (.dict kvs)

/-- Inserting under a key that collides with no existing key appends the
pair at the end of the dict. -/
theorem dictInsert_of_fresh (acc : List (Val × Val)) (k v : Val)
    (h : ∀ p ∈ acc, pyEq p.1 k = false) :
    dictInsert acc k v = acc ++ [(k, v)] := by
  induction acc with
  | nil => rfl
  | cons q rest ih =>
      obtain ⟨k', v'⟩ := q
      have hk : pyEq k' k = false := h (k', v') (List.mem_cons_self _ _)
      simp [dictInsert, hk, ih fun p hp => h p (List.mem_cons_of_mem _ hp)]

/-- Every key present after an insertion is either the inserted key or a
key that was already present. -/
theorem mem_dictInsert_fst {acc : List (Val × Val)} {k v : Val}
    {p : Val × Val} (hp : p ∈ dictInsert acc k v) :
    p.1 = k ∨ ∃ q ∈ acc, p.1 = q.1 := by
  induction acc with
  | nil =>
      simp only [dictInsert, List.mem_singleton] at hp
      exact Or.inl (by rw [hp])
  | cons q rest ih =>
      obtain ⟨k', v'⟩ := q
      by_cases hk : pyEq k' k = true
      · simp only [dictInsert, hk, if_pos] at hp
        rcases List.mem_cons.mp hp with h1 | h2
        · exact Or.inr ⟨(k', v'), List.mem_cons_self _ _, by rw [h1]⟩
        · exact Or.inr ⟨p, List.mem_cons_of_mem _ h2, rfl⟩
      · simp only [dictInsert, hk, if_neg, Bool.false_eq_true,
          not_false_iff] at hp
        rcases List.mem_cons.mp hp with h1 | h2
        · exact Or.inr ⟨(k', v'), List.mem_cons_self _ _, by rw [h1]⟩
        · rcases ih h2 with h3 | ⟨q, hq, h4⟩
          · exact Or.inl h3
          · exact Or.inr ⟨q, List.mem_cons_of_mem _ hq, h4⟩

/-- Insertion preserves "every stored value is a canonical output". -/
theorem dictInsert_values {acc : List (Val × Val)} {k v : Val}
    (hacc : ∀ p ∈ acc, NormOut p.2) (hv : NormOut v) :
    ∀ p ∈ dictInsert acc k v, NormOut p.2 := by
  induction acc with
  | nil =>
      intro p hp
      simp only [dictInsert, List.mem_singleton] at hp
      rw [hp]
      exact hv
  | cons q rest ih =>
      obtain ⟨k', v'⟩ := q
      intro p hp
      by_cases hk : pyEq k' k = true
      · simp only [dictInsert, hk, if_pos] at hp
        rcases List.mem_cons.mp hp with h1 | h2
        · rw [h1]; exact hv
        · exact hacc p (List.mem_cons_of_mem _ h2)
      · simp only [dictInsert, hk, if_neg, Bool.false_eq_true,
          not_false_iff] at hp
        rcases List.mem_cons.mp hp with h1 | h2
        · rw [h1]; exact hacc (k', v') (List.mem_cons_self _ _)
        · exact ih (fun r hr => hacc r (List.mem_cons_of_mem _ hr)) p h2

/-- Unfolding: the empty key list ends the loop with the accumulator. -/
theorem mapPairs_nil (items : List Val) (i : Nat) (acc : List (Val × Val)) :
    mapPairs [] items i acc = some acc := by
  rw [mapPairs]

/-- Unfolding: a `None` key skips the pair and advances the index. -/
theorem mapPairs_cons_null {k : Val} (ks items : List Val) (i : Nat)
    (acc : List (Val × Val)) (hk : k.isNull = true) :
    mapPairs (k :: ks) items i acc = mapPairs ks items (i + 1) acc := by
  rw [mapPairs]
  simp [hk]

/-- Unfolding: a non-`None` key whose index is past the end of the item
list raises `IndexError`. -/
theorem mapPairs_get_none {k : Val} {ks items : List Val} {i : Nat}
    {acc : List (Val × Val)} (hk : k.isNull = false)
    (hgi : items.get? i = Option.none) :
    mapPairs (k :: ks) items i acc = Option.none := by
  rw [mapPairs]
  simp only [hk, Bool.false_eq_true, if_neg, not_false_iff]
  split
  · rfl
  · next it h => rw [hgi] at h; cases h

/-- Unfolding: a non-`None` key with an in-range item converts the item,
then the key, then assigns into the accumulated dict. -/
theorem mapPairs_get_some {k : Val} {ks items : List Val} {i : Nat}
    {acc : List (Val × Val)} {it : Val} (hk : k.isNull = false)
    (hgi : items.get? i = some it) :
    mapPairs (k :: ks) items i acc =
      (do
        let iv ← normalize it
        let kv ← normalize k
        if hashable kv then mapPairs ks items (i + 1) (dictInsert acc kv iv)
        else Option.none) := by
  rw [mapPairs]
  simp only [hk, Bool.false_eq_true, if_neg, not_false_iff]
  split
  · next h => rw [hgi] at h; cases h
  · next it' h =>
      rw [hgi] at h
      injection h with h
      rw [h]

/-- Indexing into the tail shifts the index by one. -/
theorem get?_tail_shift (items : List Val) (i : Nat) :
    items.tail.get? i = items.get? (i + 1) := by
  cases items <;> simp [List.get?]

/-- Starting the map loop one index later is the same as dropping the
first item: the loop only reads `items` at the running index. -/
theorem mapPairs_shift (ks items : List Val) (i : Nat)
    (acc : List (Val × Val)) :
    mapPairs ks items (i + 1) acc = mapPairs ks items.tail i acc := by
  induction ks generalizing i acc with
  | nil => rw [mapPairs_nil, mapPairs_nil]
  | cons k ks ih =>
      by_cases hk : k.isNull = true
      · rw [mapPairs_cons_null ks items (i + 1) acc hk,
          mapPairs_cons_null ks items.tail i acc hk, ih]
      · replace hk : k.isNull = false := by
          cases h : k.isNull
          · rfl
          · exact absurd h hk
        cases hgi : items.get? (i + 1) with
        | none =>
            have hgi' : items.tail.get? i = Option.none := by
              rw [get?_tail_shift, hgi]
            rw [mapPairs_get_none hk hgi, mapPairs_get_none hk hgi']
        | some it =>
            have hgi' : items.tail.get? i = some it := by
              rw [get?_tail_shift, hgi]
            rw [mapPairs_get_some hk hgi, mapPairs_get_some hk hgi']
            cases hiv : normalize it with
            | none => rfl
            | some iv =>
                cases hkv : normalize k with
                | none => rfl
                | some kv =>
                    by_cases hh : hashable kv = true
                    · simp [hh, ih]
                    · simp [hh]

/-- Elementwise conversion distributes over append. -/
theorem normElems_append (xs ys : List Val) :
    normElems (xs ++ ys) =
      (do
        let as ← normElems xs
        let bs ← normElems ys
        pure (as ++ bs)) := by
  induction xs with
  | nil =>
      simp only [List.nil_append, normElems, Option.some_bind]
      cases normElems ys <;> rfl
  | cons x xs ih =>
      simp only [List.cons_append, normElems]
      cases hx : normalize x with
      | none => simp
      | some v =>
          cases hxs : normElems xs with
          | none => simp [ih, hxs]
          | some as =>
              cases hys : normElems ys <;> simp [ih, hxs, hys]

/-- A canonical output that is hashable compares equal to itself under
Python `==`. -/
theorem pyEq_refl_of_normOut {v : Val} (h : NormOut v)
    (hh : hashable v = true) : pyEq v v = true := by
  cases h <;> simp_all [pyEq, hashable]

/-- Soundness of `NormOut`: every successful conversion result lies in the
canonical-output sublanguage (in particular list elements and dict values
are themselves canonical). -/
theorem normOut_of_normalize (v : Val) :
    ∀ w, normalize v = some w → NormOut w := by
  refine normalize.induct
    (fun v => ∀ w, normalize v = some w → NormOut w)
    (fun kvs => ∀ d, dictItems kvs = some d → ∀ p ∈ d, NormOut p.2)
    (fun fs acc => (∀ p ∈ acc, NormOut p.2) →
      ∀ d, structFields fs acc = some d → ∀ p ∈ d, NormOut p.2)
    (fun xs => ∀ ws, normElems xs = some ws → ∀ w ∈ ws, NormOut w)
    (fun ks items i acc => (∀ p ∈ acc, NormOut p.2) →
      ∀ d, mapPairs ks items i acc = some d → ∀ p ∈ d, NormOut p.2)
    ?_ ?_ ?_ ?_ ?_ ?_ ?_ ?_ ?_ ?_ ?_ ?_ ?_ ?_ ?_ ?_ ?_ ?_ ?_ ?_ ?_ ?_ ?_ ?_ v
  · intro w h
    simp only [normalize, Option.some.injEq] at h
    rw [← h]
    exact .null
  · intro keys items hm w h
    simp only [normalize] at h
    rcases Option.map_eq_some'.mp h with ⟨d, hd, hw⟩
    rw [← hw]
    exact .dict (hm (by simp) d hd)
  · intro xs h4 w h
    simp only [normalize] at h
    rcases Option.map_eq_some'.mp h with ⟨ws, hws, hw⟩
    rw [← hw]
    exact .list (h4 ws hws)
  · intro fields hm w h
    simp only [normalize] at h
    rcases Option.map_eq_some'.mp h with ⟨d, hd, hw⟩
    rw [← hw]
    exact .dict (hm (by simp) d hd)
  · intro w h
    simp only [normalize, Option.some.injEq] at h
    rw [← h]
    exact .null
  · intro x hx w h
    simp only [normalize] at h
    exact hx w h
  · intro x y rest h4 w h
    simp only [normalize] at h
    rcases Option.map_eq_some'.mp h with ⟨ws, hws, hw⟩
    rw [← hw]
    exact .list (h4 ws hws)
  · intro u hu w h
    simp only [normalize] at h
    exact hu w h
  · intro kvs h2 w h
    simp only [normalize] at h
    rcases Option.map_eq_some'.mp h with ⟨d, hd, hw⟩
    rw [← hw]
    exact .dict (h2 d hd)
  · intro xs h4 w h
    simp only [normalize] at h
    rcases Option.map_eq_some'.mp h with ⟨ws, hws, hw⟩
    rw [← hw]
    exact .list (h4 ws hws)
  · intro b w h
    simp only [normalize, Option.some.injEq] at h
    rw [← h]
    exact .bool b
  · intro n w h
    simp only [normalize, Option.some.injEq] at h
    rw [← h]
    exact .int n
  · intro s w h
    simp only [normalize, Option.some.injEq] at h
    rw [← h]
    exact .str s
  · intro d h p hp
    simp only [dictItems, Option.some.injEq] at h
    rw [← h] at hp
    simp at hp
  · intro k v kvs hv hkvs d h p hp
    simp only [dictItems] at h
    cases hnv : normalize v with
    | none => simp [hnv] at h
    | some w =>
        cases hrest : dictItems kvs with
        | none => simp [hnv, hrest] at h
        | some rest =>
            simp [hnv, hrest] at h
            subst h
            rcases List.mem_cons.mp hp with h1 | h2
            · rw [h1]
              exact hv w hnv
            · exact hkvs rest hrest p h2
  · intro acc hacc d h p hp
    simp only [structFields, Option.some.injEq] at h
    rw [← h] at hp
    exact hacc p hp
  · intro name v fs acc hnull ih hacc d h
    simp only [structFields, hnull, if_pos] at h
    exact ih hacc d h
  · intro name v fs acc hnn hv ih hacc d h
    simp only [structFields, hnn, if_neg, Bool.false_eq_true,
      not_false_iff] at h
    cases hnv : normalize v with
    | none => simp [hnv] at h
    | some w =>
        simp only [hnv, Option.some_bind] at h
        exact ih w (dictInsert_values hacc (hv w hnv)) d h
  · intro ws h w hw
    simp only [normElems, Option.some.injEq] at h
    rw [← h] at hw
    simp at hw
  · intro x xs hx hxs ws h w hw
    simp only [normElems] at h
    cases hnx : normalize x with
    | none => simp [hnx] at h
    | some u =>
        cases hrest : normElems xs with
        | none => simp [hnx, hrest] at h
        | some us =>
            simp [hnx, hrest] at h
            subst h
            rcases List.mem_cons.mp hw with h1 | h2
            · rw [h1]
              exact hx u hnx
            · exact hxs us hrest w h2
  · intro items i acc hacc d h p hp
    rw [mapPairs_nil] at h
    injection h with h
    rw [← h] at hp
    exact hacc p hp
  · intro k ks items i acc hk ih hacc d h
    rw [mapPairs_cons_null ks items i acc hk] at h
    exact ih hacc d h
  · intro k ks items i acc hnn hgi hacc d h
    have hf : k.isNull = false := by
      cases hb : k.isNull
      · rfl
      · exact absurd hb hnn
    rw [mapPairs_get_none hf hgi] at h
    cases h
  · intro k ks items i acc hnn it hgi hit hk ih hacc d h
    have hf : k.isNull = false := by
      cases hb : k.isNull
      · rfl
      · exact absurd hb hnn
    rw [mapPairs_get_some hf hgi] at h
    cases hiv : normalize it with
    | none => simp [hiv] at h
    | some iv =>
        cases hkv : normalize k with
        | none => simp [hiv, hkv] at h
        | some kv =>
            by_cases hh : hashable kv = true
            · simp [hiv, hkv, hh] at h
              exact ih iv kv (dictInsert_values hacc (hit iv hiv)) d h
            · simp [hiv, hkv, hh] at h

/-- Elementwise conversion of a list whose elements are all fixed points
of `normalize` returns the list unchanged. -/
theorem normElems_of_each {xs : List Val}
    (h : ∀ x ∈ xs, normalize x = some x) : normElems xs = some xs := by
  induction xs with
  | nil => simp [normElems]
  | cons x xs ih =>
      simp [normElems, h x (List.mem_cons_self _ _),
        ih fun y hy => h y (List.mem_cons_of_mem _ hy)]

/-- Dict comprehension over entries whose values are all fixed points of
`normalize` returns the entry list unchanged. -/
theorem dictItems_of_each {kvs : List (Val × Val)}
    (h : ∀ p ∈ kvs, normalize p.2 = some p.2) : dictItems kvs = some kvs := by
  induction kvs with
  | nil => simp [dictItems]
  | cons p kvs ih =>
      obtain ⟨k, v⟩ := p
      simp [dictItems, h (k, v) (List.mem_cons_self _ _),
        ih fun q hq => h q (List.mem_cons_of_mem _ hq)]

/-- A Boolean that is not `true` is `false`. -/
theorem bool_eq_false {b : Bool} (h : ¬ b = true) : b = false := by
  cases b
  · rfl
  · exact absurd rfl h

/-- Key provenance through the map loop: every key of the produced dict
is either a key already in the accumulator or the conversion of some
non-`None` source key — never a further (textual) coercion of it. -/
theorem mapPairs_keys {ks items : List Val} {i : Nat}
    {acc d : List (Val × Val)} (h : mapPairs ks items i acc = some d) :
    ∀ p ∈ d, (∃ q ∈ acc, p.1 = q.1) ∨
      ∃ k ∈ ks, k.isNull = false ∧ normalize k = some p.1 := by
  induction ks generalizing i acc with
  | nil =>
      rw [mapPairs_nil] at h
      injection h with h
      subst h
      intro p hp
      exact Or.inl ⟨p, hp, rfl⟩
  | cons k ks ih =>
      by_cases hk : k.isNull = true
      · rw [mapPairs_cons_null ks items i acc hk] at h
        intro p hp
        rcases ih h p hp with h1 | ⟨k', hk', hkn, hnk⟩
        · exact Or.inl h1
        · exact Or.inr ⟨k', List.mem_cons_of_mem _ hk', hkn, hnk⟩
      · have hf : k.isNull = false := bool_eq_false hk
        cases hgi : items.get? i with
        | none =>
            rw [mapPairs_get_none hf hgi] at h
            cases h
        | some it =>
            rw [mapPairs_get_some hf hgi] at h
            cases hiv : normalize it with
            | none => simp [hiv] at h
            | some iv =>
                cases hkv : normalize k with
                | none => simp [hiv, hkv] at h
                | some kv =>
                    by_cases hh : hashable kv = true
                    · simp [hiv, hkv, hh] at h
                      intro p hp
                      rcases ih h p hp with ⟨q, hq, hpq⟩ | h2
                      · rcases mem_dictInsert_fst hq with hq1 | ⟨r, hr, hqr⟩
                        · refine Or.inr ⟨k, List.mem_cons_self _ _, hf, ?_⟩
                          rw [hpq, hq1]
                          exact hkv
                        · exact Or.inl ⟨r, hr, by rw [hpq, hqr]⟩
                      · rcases h2 with ⟨k', hk', h3, h4⟩
                        exact Or.inr ⟨k', List.mem_cons_of_mem _ hk', h3, h4⟩
                    · simp [hiv, hkv, hh] at h

/-- A non-`None` key whose running index has no corresponding item makes
the map loop fail (the `IndexError` of `items[i]`). -/
theorem mapPairs_missing (ks items : List Val) (i : Nat)
    (acc : List (Val × Val)) :
    ∀ j k, ks.get? j = some k → k.isNull = false → items.length ≤ i + j →
    mapPairs ks items i acc = Option.none := by
  induction ks generalizing i acc with
  | nil =>
      intro j k hj
      simp [List.get?] at hj
  | cons k0 ks ih =>
      intro j k hj hkn hlen
      by_cases hk0 : k0.isNull = true
      · rw [mapPairs_cons_null ks items i acc hk0]
        cases j with
        | zero =>
            simp only [List.get?, Option.some.injEq] at hj
            rw [← hj] at hkn
            rw [hk0] at hkn
            cases hkn
        | succ j' =>
            exact ih (i + 1) acc j' k (by simpa [List.get?] using hj) hkn
              (by omega)
      · have hf : k0.isNull = false := bool_eq_false hk0
        cases j with
        | zero =>
            have hgi : items.get? i = Option.none := by
              rw [List.get?_eq_none]
              omega
            rw [mapPairs_get_none hf hgi]
        | succ j' =>
            cases hgi : items.get? i with
            | none => rw [mapPairs_get_none hf hgi]
            | some it =>
                rw [mapPairs_get_some hf hgi]
                cases hiv : normalize it with
                | none => simp [hiv]
                | some iv =>
                    cases hkv : normalize k0 with
                    | none => simp [hiv, hkv]
                    | some kv =>
                        by_cases hh : hashable kv = true
                        · simp [hiv, hkv, hh]
                          exact ih (i + 1) _ j' k
                            (by simpa [List.get?] using hj) hkn (by omega)
                        · simp [hiv, hkv, hh]

/-- Characterization of the struct arm: with pairwise-distinct field names
and convertible non-`None` values, the loop produces exactly the
`structSpec` entries appended to the accumulator. -/
theorem structFields_spec (fs : List (String × Val)) (acc : List (Val × Val))
    (hok : ∀ q ∈ fs, q.2.isNull = false → (normalize q.2).isSome)
    (hnd : (fs.map Prod.fst).Nodup)
    (hdisj : ∀ p ∈ acc, ∀ q ∈ fs, pyEq p.1 (Val.str q.1) = false) :
    structFields fs acc = some (acc ++ structSpec fs) := by
  induction fs generalizing acc with
  | nil => simp [structFields, structSpec]
  | cons q fs ih =>
      obtain ⟨name, v⟩ := q
      have hnd' : (fs.map Prod.fst).Nodup := (List.nodup_cons.mp hnd).2
      have hname : name ∉ fs.map Prod.fst := (List.nodup_cons.mp hnd).1
      by_cases hv : v.isNull = true
      · simp only [structFields, structSpec, hv, if_pos]
        exact ih acc (fun q hq => hok q (List.mem_cons_of_mem _ hq)) hnd'
          (fun p hp q hq => hdisj p hp q (List.mem_cons_of_mem _ hq))
      · have hf : v.isNull = false := bool_eq_false hv
        obtain ⟨w, hw⟩ := Option.isSome_iff_exists.mp
          (hok (name, v) (List.mem_cons_self _ _) hf)
        have hfresh : ∀ p ∈ acc, pyEq p.1 (Val.str name) = false :=
          fun p hp => hdisj p hp (name, v) (List.mem_cons_self _ _)
        simp only [structFields, structSpec, hf, Bool.false_eq_true,
          if_neg, not_false_iff, hw, Option.some_bind]
        show structFields fs (dictInsert acc (Val.str name) w) =
          some (acc ++ (Val.str name, w) :: structSpec fs)
        rw [dictInsert_of_fresh acc (Val.str name) w hfresh]
        have hdisj' : ∀ p ∈ acc ++ [(Val.str name, w)], ∀ q ∈ fs,
            pyEq p.1 (Val.str q.1) = false := by
          intro p hp q hq
          rcases List.mem_append.mp hp with h1 | h2
          · exact hdisj p h1 q (List.mem_cons_of_mem _ hq)
          · have hpp : p = (Val.str name, w) := by simpa using h2
            rw [hpp]
            have hne : name ≠ q.1 := by
              intro hcontra
              exact hname (hcontra ▸ List.mem_map_of_mem Prod.fst hq)
            simp [pyEq, hne]
        rw [ih (acc ++ [(Val.str name, w)])
          (fun q hq => hok q (List.mem_cons_of_mem _ hq)) hnd' hdisj']
        simp

/-- Completeness of `NormOut`: every canonical output is a fixed point of
the conversion. -/
theorem normalize_of_normOut {w : Val} (h : NormOut w) :
    normalize w = some w := by
  induction h with
  | null => simp [normalize]
  | bool b => simp [normalize]
  | int n => simp [normalize]
  | str s => simp [normalize]
  | list hxs ih =>
      simp [normalize, normElems_of_each ih]
  | dict hkvs ih =>
      simp [normalize, dictItems_of_each ih]

/-- A one-pair map with a convertible, non-`None`, hashable key converts
to the singleton dict keyed by the converted key itself. -/
theorem normalize_mapArr_single (k v kv w : Val) (hf : k.isNull = false)
    (hk : normalize k = some kv) (hh : hashable kv = true)
    (hv : normalize v = some w) :
    normalize (.mapArr [k] [v]) = some (.dict [(kv, w)]) := by
  have e : mapPairs [k] [v] 0 [] = some [(kv, w)] := by
    rw [mapPairs_get_some hf (show ([v] : List Val).get? 0 = some v from rfl)]
    simp [hv, hk, hh, dictInsert, mapPairs_nil]
  simp [normalize, e]

/-- For a value whose outermost shape is a Python native, conversion
yields `None` exactly when the value is `None`. -/
theorem normalize_null_iff_of_native {k : Val} (hk : pyNativeTop k = true) :
    normalize k = some Val.null ↔ k = Val.null := by
  cases k <;> simp_all [pyNativeTop, normalize, Option.map_eq_some']

/-- Accumulating from `total` is accumulating from zero plus `total`. -/
theorem batchStep_shift {α : Type} (conv : α → Except String Nat)
    (total : Nat) (f : α) :
    batchStep conv total f = total + batchStep conv 0 f := by
  cases h : conv f <;> simp [batchStep, h]

/-- The batch fold from an arbitrary starting total. -/
theorem foldl_batchStep_shift {α : Type} (conv : α → Except String Nat)
    (l : List α) : ∀ init : Nat,
    l.foldl (batchStep conv) init = init + l.foldl (batchStep conv) 0 := by
  induction l with
  | nil => simp
  | cons f l ih =>
      intro init
      simp only [List.foldl]
      rw [ih (batchStep conv init f), ih (batchStep conv 0 f),
        batchStep_shift conv init f]
      omega

/-- The batch total over concatenated file lists is the sum of the batch
totals. -/
theorem convert_all_append {α : Type} (conv : α → Except String Nat)
    (xs ys : List α) :
    convert_all_parquet_files conv (xs ++ ys) =
      convert_all_parquet_files conv xs +
      convert_all_parquet_files conv ys := by
  unfold convert_all_parquet_files
  rw [List.foldl_append, foldl_batchStep_shift]

/-- C1 — counterexample.  The claim says every key of every Mapping
produced by the normalizer is of type Text.  The integer key `10` is
inserted by src line 32 as the converted key itself, not its textual
coercion, so the produced dict holds a non-Text key. -/
theorem c1_map_key_not_text :
    normalize (.mapArr [.int 10] [.str "x"]) =
      some (.dict [(.int 10, .str "x")]) ∧
    (Val.int 10).isStr = false := by
  constructor
  · simp [normalize, mapPairs, dictInsert, Val.isNull, hashable, List.get?]
  · rfl

/-- C1 — amended.  The output Mapping's keys are the converted keys
themselves, never a further Text coercion: every key of the produced dict
is `normalize k` for some non-`None` source key `k`, and a one-pair map
keeps the converted key unchanged.  Text coercion only happens later, at
JSON serialization. -/
theorem c1_map_keys_not_coerced :
    (∀ keys items d, normalize (.mapArr keys items) = some (.dict d) →
      ∀ p ∈ d, ∃ k ∈ keys, k.isNull = false ∧ normalize k = some p.1) ∧
    (∀ k v kv w, k.isNull = false → normalize k = some kv →
      hashable kv = true → normalize v = some w →
      normalize (.mapArr [k] [v]) = some (.dict [(kv, w)])) := by
  constructor
  · intro keys items d h p hp
    simp only [normalize] at h
    rcases Option.map_eq_some'.mp h with ⟨d', hd', hdd⟩
    injection hdd with hdd
    subst hdd
    rcases mapPairs_keys hd' p hp with ⟨q, hq, _⟩ | hsrc
    · simp at hq
    · exact hsrc
  · exact fun k v kv w hf hk hh hv => normalize_mapArr_single k v kv w hf hk hh hv

/-- C1 — witness for the amended theorem at the integer-keyed pair. -/
theorem c1_map_keys_not_coerced_witness :
    normalize (.mapArr [.int 10] [.str "x"]) =
      some (.dict [(.int 10, .str "x")]) :=
  c1_map_keys_not_coerced.2 (.int 10) (.str "x") (.int 10) (.str "x") rfl
    (by simp [normalize]) rfl (by simp [normalize])

/-- C2 — confirmed.  The Column wrapper (a plain PyArrow `Array` handed
back in place of a single value) unwraps exactly as claimed: length 0
gives `Null`, length 1 normalizes the sole element, length greater than 1
normalizes as a list of the element conversions in order. -/
theorem c2_column_unwrap :
    (normalize (.arr []) = some .null) ∧
    (∀ x, normalize (.arr [x]) = normalize x) ∧
    (∀ x y rest, normalize (.arr (x :: y :: rest)) =
      (normElems (x :: y :: rest)).map Val.list) := by
  refine ⟨by simp [normalize], fun x => by simp [normalize],
    fun x y rest => by simp [normalize]⟩

/-- C3 — counterexample.  The claim says a Struct field whose value is
absent is mapped to `Null` and never omitted.  Src line 44 skips a field
whose value is `None`, so field `b` disappears from the output instead of
appearing as `Null`. -/
theorem c3_struct_null_field_omitted :
    normalize (.structArr [("a", .int 1), ("b", .null), ("c", .int 3)]) =
      some (.dict [(.str "a", .int 1), (.str "c", .int 3)]) ∧
    normalize (.structArr [("a", .int 1), ("b", .null), ("c", .int 3)]) ≠
      some (.dict [(.str "a", .int 1), (.str "b", .null),
        (.str "c", .int 3)]) := by
  have h : normalize (.structArr [("a", .int 1), ("b", .null),
      ("c", .int 3)]) = some (.dict [(.str "a", .int 1), (.str "c", .int 3)]) := by
    simp [normalize, structFields, dictInsert, Val.isNull, pyEq]
  refine ⟨h, ?_⟩
  rw [h]
  simp

/-- C3 — amended.  The struct arm produces one entry per schema field
whose value is not `Null`, keyed by the field name, in schema order; a
`Null`-valued (absent) field is omitted from the output Mapping rather
than materialized as `Null`. -/
theorem c3_struct_spec : ∀ fields : List (String × Val),
    (∀ q ∈ fields, q.2.isNull = false → (normalize q.2).isSome) →
    (fields.map Prod.fst).Nodup →
    normalize (.structArr fields) = some (.dict (structSpec fields)) := by
  intro fields hok hnd
  simp only [normalize]
  rw [structFields_spec fields [] hok hnd (by simp)]
  simp

/-- C3 — witness for the amended theorem on a two-field struct with one
`Null` field. -/
theorem c3_struct_spec_witness :
    normalize (.structArr [("a", .int 1), ("b", .null)]) =
      some (.dict (structSpec [("a", .int 1), ("b", .null)])) :=
  c3_struct_spec [("a", .int 1), ("b", .null)]
    (by
      intro q hq hqn
      rcases List.mem_cons.mp hq with h1 | h2
      · rw [h1]
        simp [normalize]
      · rcases List.mem_cons.mp h2 with h3 | h4
        · rw [h3] at hqn
          simp [Val.isNull] at hqn
        · simp at h4)
    (by simp)

/-- C4 — counterexample.  The claim says every Map whose key and value
sequences have different lengths raises an error.  With one key and two
values the loop never touches the extra value and silently returns a
coerced result. -/
theorem c4_mismatch_not_always_error :
    normalize (.mapArr [.int 1] [.str "a", .str "b"]) =
      some (.dict [(.int 1, .str "a")]) ∧
    [Val.int 1].length ≠ [Val.str "a", Val.str "b"].length := by
  constructor
  · simp [normalize, mapPairs, dictInsert, Val.isNull, hashable, List.get?]
  · decide

/-- C4 — amended.  The map arm fails (Python `IndexError`, the code's
manifestation of the spec's `InvariantViolation`) exactly in the claimed
direction that the code supports: whenever some non-`None` key sits at an
index with no corresponding item.  Maps with more items than keys, or
whose out-of-range keys are all `None`, are silently coerced instead. -/
theorem c4_missing_item_error : ∀ (keys items : List Val) (j : Nat) (k : Val),
    keys.get? j = some k → k.isNull = false → items.length ≤ j →
    normalize (.mapArr keys items) = Option.none := by
  intro keys items j k hj hk hlen
  simp only [normalize]
  rw [mapPairs_missing keys items 0 [] j k hj hk (by omega)]
  rfl

/-- C4 — witness: the spec's own example, two keys and one value. -/
theorem c4_missing_item_error_witness :
    normalize (.mapArr [.int 1, .int 2] [.str "a"]) = Option.none :=
  c4_missing_item_error [.int 1, .int 2] [.str "a"] 1 (.int 2) rfl rfl
    (by decide)

/-- C5 — confirmed.  The end-to-end conversion of the 2-row table with
columns id and tags produces exactly the two claimed JSONL lines, with the
integer map keys rendered as text by `json.dumps`. -/
theorem c5_two_row_end_to_end :
    convert_parquet_to_jsonl
      [("id", [.int 1, .int 2]),
       ("tags", [.mapArr [.int 10, .int 20] [.str "x", .str "y"],
         .mapArr [] []])] 2 =
    some ["\x7b\"id\": 1, \"tags\": \x7b\"10\": \"x\", \"20\": \"y\"\x7d\x7d",
          "\x7b\"id\": 2, \"tags\": \x7b\x7d\x7d"] := by
  simp [convert_parquet_to_jsonl, emitRows, rowLine, buildRow, normalize,
    mapPairs, dictInsert, Val.isNull, hashable, pyEq, dumps, dumpsEntries,
    dumpsList, dumpKey, dumpStr, escapeJson, escapeChar, List.get?]
  decide

/-- C6 — counterexample.  The claim says keys that coerce to the same
Text merge with the later value winning.  The keys `10` and `"10"` render
to the same JSON key text, yet the dict keeps both entries and the earlier
value survives: collision is decided by Python `==` on converted keys, not
by their textual coercion. -/
theorem c6_same_text_keys_not_merged :
    dumpKey (Val.int 10) = dumpKey (Val.str "10") ∧
    normalize (.mapArr [.int 10, .str "10"] [.str "a", .str "b"]) =
      some (.dict [(.int 10, .str "a"), (.str "10", .str "b")]) := by
  constructor
  · decide
  · simp [normalize, mapPairs, dictInsert, Val.isNull, hashable, pyEq,
      List.get?]

/-- C6 — amended.  (1) A pair whose raw key is `None` is skipped, the
loop continuing at the next index; (2) for the Python-native keys the
reader supplies, a key converts to `Null` exactly when it is `None`;
(3) when two keys convert to `pyEq`-equal values the later pair's value
overwrites the earlier one's, at the earlier position. -/
theorem c6_map_pair_rules :
    (∀ ks its, normalize (.mapArr (Val.null :: ks) its) =
      normalize (.mapArr ks its.tail)) ∧
    (∀ k, pyNativeTop k = true →
      (normalize k = some Val.null ↔ k = Val.null)) ∧
    (∀ k1 k2 v1 v2 kv w1 w2 : Val, k1.isNull = false → k2.isNull = false →
      normalize k1 = some kv → normalize k2 = some kv → hashable kv = true →
      normalize v1 = some w1 → normalize v2 = some w2 →
      normalize (.mapArr [k1, k2] [v1, v2]) = some (.dict [(kv, w2)])) := by
  refine ⟨?_, ?_, ?_⟩
  · intro ks its
    simp only [normalize]
    rw [mapPairs_cons_null ks its 0 []
      (show Val.isNull .null = true from rfl), mapPairs_shift]
  · exact fun k hk => normalize_null_iff_of_native hk
  · intro k1 k2 v1 v2 kv w1 w2 hf1 hf2 hk1 hk2 hh hv1 hv2
    have hrefl : pyEq kv kv = true :=
      pyEq_refl_of_normOut (normOut_of_normalize k1 kv hk1) hh
    have e : mapPairs [k1, k2] [v1, v2] 0 [] = some [(kv, w2)] := by
      rw [mapPairs_get_some hf1
        (show ([v1, v2] : List Val).get? 0 = some v1 from rfl)]
      simp [hv1, hk1, hh, dictInsert]
      rw [mapPairs_get_some hf2
        (show ([v1, v2] : List Val).get? 1 = some v2 from rfl)]
      simp [hv2, hk2, hh, dictInsert, hrefl, mapPairs_nil]
    simp [normalize, e]

/-- C6 — witness for the amended theorem: two equal integer keys, where
the later value wins. -/
theorem c6_map_pair_rules_witness :
    normalize (.mapArr [.int 7, .int 7] [.str "a", .str "b"]) =
      some (.dict [(.int 7, .str "b")]) :=
  c6_map_pair_rules.2.2 (.int 7) (.int 7) (.str "a") (.str "b") (.int 7)
    (.str "a") (.str "b") rfl rfl (by simp [normalize]) (by simp [normalize])
    rfl (by simp [normalize]) (by simp [normalize])

/-- C7 — counterexample.  The claim says a `Null` struct field value
appears as `Null` at the corresponding output position.  Src line 44
instead drops the field entirely. -/
theorem c7_struct_null_dropped :
    normalize (.structArr [("a", .null)]) = some (.dict []) ∧
    normalize (.structArr [("a", .null)]) ≠
      some (.dict [(.str "a", .null)]) := by
  have h : normalize (.structArr [("a", .null)]) = some (.dict []) := by
    simp [normalize, structFields, Val.isNull]
  refine ⟨h, ?_⟩
  rw [h]
  simp

/-- C7 — amended.  `normalize(Null) = Null`; a `Null` list element is
preserved in place with its siblings intact; a `Null` map value is
preserved under its key; but a `Null` struct field value causes that field
to be omitted (its sibling fields are unaffected). -/
theorem c7_null_preservation :
    (normalize Val.null = some Val.null) ∧
    (∀ pre post pre' post', normElems pre = some pre' →
      normElems post = some post' →
      normalize (.listArr (pre ++ Val.null :: post)) =
        some (.list (pre' ++ Val.null :: post'))) ∧
    (∀ k kv, k.isNull = false → normalize k = some kv →
      hashable kv = true →
      normalize (.mapArr [k] [Val.null]) = some (.dict [(kv, Val.null)])) ∧
    (∀ nm fields, normalize (.structArr ((nm, Val.null) :: fields)) =
      normalize (.structArr fields)) := by
  refine ⟨by simp [normalize], ?_, ?_, ?_⟩
  · intro pre post pre' post' hpre hpost
    simp [normalize, normElems_append, normElems, hpre, hpost]
  · intro k kv hf hk hh
    exact normalize_mapArr_single k .null kv .null hf hk hh (by simp [normalize])
  · intro nm fields
    simp [normalize, structFields, Val.isNull]

/-- C7 — witness for the amended theorem: a `Null` between two list
elements survives in place. -/
theorem c7_null_preservation_witness :
    normalize (.listArr [.int 1, Val.null, .int 2]) =
      some (.list [.int 1, Val.null, .int 2]) :=
  c7_null_preservation.2.1 [.int 1] [.int 2] [.int 1] [.int 2]
    (by simp [normElems, normalize]) (by simp [normElems, normalize])

/-- C8 — confirmed.  A file whose conversion raises is caught by the
`try`/`except` of src lines 134-141 and contributes nothing, while every
file before and after it is still converted: the batch total over the
whole list equals the totals of the surrounding sublists. -/
theorem c8_batch_isolation : ∀ {α : Type} (conv : α → Except String Nat)
    (xs : List α) (bad : α) (ys : List α) (e : String),
    conv bad = .error e →
    convert_all_parquet_files conv (xs ++ bad :: ys) =
      convert_all_parquet_files conv xs +
      convert_all_parquet_files conv ys := by
  intro α conv xs bad ys e herr
  rw [convert_all_append]
  have hbad : convert_all_parquet_files conv (bad :: ys) =
      convert_all_parquet_files conv ys := by
    unfold convert_all_parquet_files
    simp only [List.foldl]
    rw [foldl_batchStep_shift]
    simp [batchStep, herr]
  rw [hbad]

/-- C8 — witness: a failing middle file between two good files. -/
theorem c8_batch_isolation_witness :
    convert_all_parquet_files convOneBad
      ["a.parquet", "bad.parquet", "c.parquet"] =
    convert_all_parquet_files convOneBad ["a.parquet"] +
      convert_all_parquet_files convOneBad ["c.parquet"] :=
  c8_batch_isolation convOneBad ["a.parquet"] "bad.parquet" ["c.parquet"]
    "IndexError" (by simp [convOneBad])

/-- C9 — confirmed.  In the embedding the converter is a pure function of
its argument (the source touches no global state and performs no I/O), so
identical inputs give identical outputs. -/
theorem c9_deterministic : ∀ v w : Val, v = w → normalize v = normalize w :=
  fun _ _ h => congrArg normalize h

/-- C9 — witness at a concrete scalar. -/
theorem c9_deterministic_witness :
    normalize (.scalar (.int 3)) = normalize (.scalar (.int 3)) :=
  c9_deterministic (.scalar (.int 3)) (.scalar (.int 3)) rfl

/-- C10 — confirmed.  Conversion is idempotent: converting a successful
conversion result returns it unchanged. -/
theorem c10_idempotent : ∀ v w : Val, normalize v = some w →
    normalize w = some w :=
  fun v w h => normalize_of_normOut (normOut_of_normalize v w h)

/-- C10 — witness: re-converting the converted integer-keyed map. -/
theorem c10_idempotent_witness :
    normalize (Val.dict [(Val.int 10, Val.str "x")]) =
      some (Val.dict [(Val.int 10, Val.str "x")]) :=
  c10_idempotent (.mapArr [.int 10] [.str "x"])
    (Val.dict [(Val.int 10, Val.str "x")])
    (by simp [normalize, mapPairs, dictInsert, Val.isNull, hashable,
      List.get?])

end P2J
